import Mathlib

/-!
Verification of the HXR-attenuator control logic.

The definitions below are shallow embeddings of the Python sources:

* `src/ioc-satt-dev/satt_app.py` (`IOCMain`): the bitmask configuration
  search (`_find_configs`), the transmission product (`t_calc`), the
  NaN-marked transmission basis (`all_transmissions`) and the public
  entry points `_get_config` / `_print_config`.
* `src/solid_attenuator/sxr.py` (`SystemGroup` / `IOCBase`): the motion
  sequencer (`move_blade_step`), the motor-feedback handler
  (`motor_has_moved`), the transmission products and working-filter sets.
* `src/solid_attenuator/tests/test_calc.py`: exercises the
  material-priority search of the `calculator` module (that module is not
  among the provided sources; the pieces needed here are modelled from the
  spec and marked as such).

Python floats are modelled as rationals (`ℚ`); a NaN-marked basis entry is
modelled as `Option ℚ` with `none` for NaN, and `nanprod` as the product of
the `some` entries.  Motor states (`util.State`, a module not included in
the sources) are modelled from the spec as a four-state enumeration.
-/

namespace HXRAtten

/-! ### Motor states -/

/-- Modelled from the spec: `util.State` (module `solid_attenuator/util.py`
is not among the provided sources).  Per-filter physical insertion/position
feedback is an "enumerated motor state, mapped to
inserted/retracted/moving/unknown". -/
inductive MotorState
  | unknown
  | retracted
  | inserted
  | moving
  deriving DecidableEq

/-- Modelled from the spec: `State.is_inserted`, true exactly for the
inserted state. -/
def MotorState.is_inserted : MotorState → Bool
  | .inserted => true
  | _ => false

/-- Modelled from the spec: `State.is_moving`, true exactly for the moving
state. -/
def MotorState.is_moving : MotorState → Bool
  | .moving => true
  | _ => false

/-! ### Motion sequencer: `SystemGroup.move_blade_step` (sxr.py 175-223)

`items` is the zip of the per-blade set PVs (modelled as `ℕ` identities)
with the active and best configurations.  The caller-supplied progress
dictionary is modelled as an association list looked up with
`List.lookup`; a Python dict assignment `state[pv] = target` is modelled
by prepending the binding, which shadows any earlier one. -/

/-- Filters of `items` whose best state is retracted and disagrees with the
active state, paired with their target state (sxr.py 200-204). -/
def move_out (items : List (ℕ × MotorState × MotorState)) : List (ℕ × MotorState) :=
  (items.filter
    (fun p => !p.2.2.is_inserted && decide (p.2.1 ≠ p.2.2))).map (fun p => (p.1, p.2.2))

/-- Filters of `items` whose best state is inserted and disagrees with the
active state, paired with their target state (sxr.py 205-209). -/
def move_in (items : List (ℕ × MotorState × MotorState)) : List (ℕ × MotorState) :=
  (items.filter
    (fun p => p.2.2.is_inserted && decide (p.2.1 ≠ p.2.2))).map (fun p => (p.1, p.2.2))

/-- The command-issuing loop of `move_blade_step` (sxr.py 217-221): for each
`(pv, target)` of `to_move`, if the progress record does not already map
`pv` to `target`, record the mapping and enqueue the command.  Returns the
final progress record and the list of enqueued commands. -/
def issue_commands (prog : List (ℕ × MotorState)) :
    List (ℕ × MotorState) → List (ℕ × MotorState) × List (ℕ × MotorState)
  | [] => (prog, [])
  | (pv, tgt) :: rest =>
      if prog.lookup pv = some tgt then
        issue_commands prog rest
      else
        let r := issue_commands ((pv, tgt) :: prog) rest
        (r.1, (pv, tgt) :: r.2)

/-- `SystemGroup.move_blade_step` (sxr.py 175-223): one sequencer step.
Returns the updated progress record, the enqueued commands, and the
"continue" flag `bool(move_in or move_out)`. -/
def move_blade_step (items : List (ℕ × MotorState × MotorState))
    (prog : List (ℕ × MotorState)) :
    List (ℕ × MotorState) × List (ℕ × MotorState) × Bool :=
  let mi := move_in items
  let mo := move_out items
  let to_move := if mi.isEmpty then mo else mi
  let r := issue_commands prog to_move
  (r.1, r.2, !(mi.isEmpty && mo.isEmpty))

/-! ### Re-entrancy guard: `util.block_on_reentry` (C5) -/

/-- Modelled from the spec: the state of the `run_calculation` coordinator,
guarded by `util.block_on_reentry` (module `solid_attenuator/util.py` is
not among the provided sources).  The spec prescribes "an atomic busy flag
checked-and-set at cycle entry and cleared at cycle exit"; `running` counts
the recomputation cycles currently executing. -/
structure CoordState where
  busy : Bool
  running : ℕ
  deriving DecidableEq

/-- Modelled from the spec: the events seen by the guarded coordinator — an
external recomputation trigger, and the completion of a cycle. -/
inductive CoordEvent
  | trigger
  | finish
  deriving DecidableEq

/-- Modelled from the spec: one event of the guarded coordinator.  A trigger
arriving while busy is dropped (state unchanged, nothing queued); otherwise
it sets the busy flag and starts a cycle.  A finish clears the flag and
retires the cycle. -/
def coord_step (s : CoordState) : CoordEvent → CoordState
  | .trigger => if s.busy then s else { busy := true, running := s.running + 1 }
  | .finish => if s.busy then { busy := false, running := s.running - 1 } else s

/-- The coordinator state after a sequence of events, starting idle. -/
def coord_run (evs : List CoordEvent) : CoordState :=
  evs.foldl coord_step { busy := false, running := 0 }

/-! ### Filters and transmission products -/

/-- One filter blade's data, as read by the transmission calculations: the
`is_stuck` and `active` PVs hold the strings "True"/"False" in the source,
and the per-energy transmissions are floats (modelled as `ℚ`). -/
structure Filt where
  is_stuck : String
  active : String
  transmission : ℚ
  transmission_3omega : ℚ
  deriving DecidableEq

/-- The working-filter test of `IOCBase.working_filters` (sxr.py 257-267):
not stuck and administratively active. -/
def working (f : Filt) : Bool :=
  decide (f.is_stuck ≠ ("True" : String)) && decide (f.active = ("True" : String))

namespace Sxr

/-- `IOCBase.working_filters` (sxr.py 257-267): the filters that are marked
as active and not stuck.  The index-keyed dictionary is modelled as a list
in index order. -/
def working_filters (fs : List Filt) : List Filt :=
  fs.filter working

/-- `IOCBase.calculate_transmission` (sxr.py 269-279): total transmission
through all filter blades, the product over the working filters. -/
def calculate_transmission (fs : List Filt) : ℚ :=
  (working_filters fs).foldl (fun t f => t * f.transmission) 1

/-- `IOCBase.calculate_transmission_3omega` (sxr.py 281-291). -/
def calculate_transmission_3omega (fs : List Filt) : ℚ :=
  (working_filters fs).foldl (fun t f => t * f.transmission_3omega) 1

/-- `SystemGroup._update_active_transmission` (sxr.py 74-88): the value
written to `transmission_actual` — a NaN array gets the transmission of
each working filter whose configured state is inserted, and `np.nanprod`
takes the product of those entries. -/
def _update_active_transmission (fs : List Filt) (config : List MotorState) : ℚ :=
  ((fs.zip config).filter
    (fun p => working p.1 && p.2.is_inserted)).foldl (fun t p => t * p.1.transmission) 1

/-- The 3rd-harmonic value written by `_update_active_transmission`
(sxr.py 88). -/
def _update_active_transmission_3omega (fs : List Filt) (config : List MotorState) : ℚ :=
  ((fs.zip config).filter
    (fun p => working p.1 && p.2.is_inserted)).foldl
      (fun t p => t * p.1.transmission_3omega) 1

end Sxr

/-- The spec's formula for the whole-device transmission published by a
recomputation cycle, written from its words: "the product, over all
currently inserted working filters, of their transmission values (filters
that are working but not inserted contribute a factor of 1)". -/
def spec_inserted_product (fs : List Filt) (config : List MotorState) : ℚ :=
  ((fs.zip config).map
    (fun p => if working p.1 && p.2.is_inserted then p.1.transmission else 1)).prod

namespace SattApp

/-- `IOCMain.working_filters` (satt_app.py 25-35): the filters that are not
stuck.  Note: unlike the sxr variant, the `active` flag is not consulted. -/
def working_filters (fs : List Filt) : List Filt :=
  fs.filter (fun f => decide (f.is_stuck ≠ ("True" : String)))

/-- `IOCMain.t_calc` (satt_app.py 37-47): total transmission through all
filter blades, the product over `working_filters`. -/
def t_calc (fs : List Filt) : ℚ :=
  (working_filters fs).foldl (fun t f => t * f.transmission) 1

/-- `IOCMain.all_transmissions` (satt_app.py 61-72): the basis vector, one
slot per filter; stuck filters keep the NaN marker (`none`), non-stuck
filters get their transmission. -/
def all_transmissions (fs : List Filt) : List (Option ℚ) :=
  fs.map (fun f => if f.is_stuck ≠ ("True" : String) then some f.transmission else none)

end SattApp

/-! ### Bitmask configuration search: `IOCMain._find_configs`
(satt_app.py 74-135)

The configuration table holds one row per insertion subset; a row holds 1
for an inserted filter and NaN for a retracted one, so that
`np.nanprod(T_basis * row)` is the product of the transmissions of the
inserted filters (a retracted filter contributes a factor of 1).  A row is
modelled as a `List Bool` (`true` = inserted).  `np.argsort` is modelled
by `List.insertionSort` (only transmission values, which do not depend on
the tie order, are reasoned about), and `np.argmin`, which returns the
first index attaining the minimum, by `argminAux`. -/

/-- Modelled from numpy: `np.abs` on a rational. -/
def absQ (x : ℚ) : ℚ := if x < 0 then -x else x

/-- All 2^n insertion subsets of n filters. -/
def allMasks : ℕ → List (List Bool)
  | 0 => [[]]
  | n + 1 =>
      ((allMasks n).map (fun m => false :: m)) ++ ((allMasks n).map (fun m => true :: m))

/-- The transmission of one configuration row:
`np.nanprod(T_basis * row)`, the product of the transmissions of the
inserted filters. -/
def maskT (basis : List ℚ) (mask : List Bool) : ℚ :=
  (List.zipWith (fun t c => if c then t else 1) basis mask).prod

/-- The table of configurations paired with their transmissions, as built
by `_find_configs` (satt_app.py 89-97) for a basis of working filters. -/
def config_candidates (basis : List ℚ) : List (List Bool × ℚ) :=
  (allMasks basis.length).map (fun m => (m, maskT basis m))

/-- Model of `np.argmin` over the nonempty list `x :: l`: the pair of the
first index attaining the minimum of `f` and that minimum value. -/
def argminAux {α : Type} (f : α → ℚ) (x : α) : List α → ℕ × ℚ
  | [] => (0, f x)
  | y :: ys =>
      let r := argminAux f y ys
      if r.2 < f x then (r.1 + 1, r.2) else (0, f x)

/-- The `np.argmin(np.abs(...))` step of `_find_configs` (satt_app.py 106)
over the sorted nonempty table `c0 :: rest`. -/
def searchMin (t_des : ℚ) (c0 : List Bool × ℚ) (rest : List (List Bool × ℚ)) : ℕ × ℚ :=
  argminAux (fun p => absQ (p.2 - t_des)) c0 rest

/-- The floor/ceiling bracket selection of `_find_configs`
(satt_app.py 99-135), shared with the `calculator` searches: sort the
candidate table by transmission, find the first closest entry to `t_des`,
and pick the neighbouring entries as the best-low and best-high
configurations, clamping the neighbour index at the table boundary. -/
def best_low_high (cands : List (List Bool × ℚ)) (t_des : ℚ) :
    (List Bool × ℚ) × (List Bool × ℚ) :=
  match List.insertionSort (fun a b => a.2 ≤ b.2) cands with
  | [] => ((([] : List Bool), 1), (([] : List Bool), 1))
  | c0 :: rest =>
      let tbl := c0 :: rest
      let r := searchMin t_des c0 rest
      let c := tbl.getD r.1 c0
      if c.2 = t_des then (c, c)
      else if c.2 < t_des then (c, tbl.getD (min (r.1 + 1) (tbl.length - 1)) c0)
      else (tbl.getD (r.1 - 1) c0, c)

/-- `IOCMain._find_configs` (satt_app.py 74-135) on a basis of working
filters: the best-low (floor) and best-high (ceiling) configurations, each
paired with its transmission. -/
def _find_configs (basis : List ℚ) (t_des : ℚ) :
    (List Bool × ℚ) × (List Bool × ℚ) :=
  best_low_high (config_candidates basis) t_des

/-- The `if not T_des:` truthiness test of `_find_configs` and
`_get_config` (satt_app.py 82-83, 143-144): an absent argument (`None`) or
an argument equal to `0.0` is replaced by the stored desired-transmission
setting. -/
def effective_t_des (t_arg : Option ℚ) (stored : ℚ) : ℚ :=
  match t_arg with
  | none => stored
  | some v => if v = 0 then stored else v

/-- `_find_configs` as invoked with its optional argument and the stored
desired-transmission setting. -/
def find_configs_entry (basis : List ℚ) (t_arg : Option ℚ) (stored : ℚ) :
    (List Bool × ℚ) × (List Bool × ℚ) :=
  _find_configs basis (effective_t_des t_arg stored)

/-- `ConfigMode`: the floor/ceiling selection policy. -/
inductive ConfigMode
  | Floor
  | Ceiling
  deriving DecidableEq

/-! ### The `_get_config` / `_print_config` entry points (satt_app.py
137-163)

Python attribute lookup on an `IOCMain` instance is modelled by the list
of attribute names the class and its construction define (class body,
`__init__`, and `create_ioc`); the external `PVGroup` superclass (the
control-variable server library, out of scope per the spec) defines none
of the names of interest.  A lookup of a missing name raises
`AttributeError`, modelled as `Except.error`. -/

/-- The attributes defined on `IOCMain` instances in satt_app.py: the class
body methods and properties, the `__init__` instance attributes, and the
`sys`/`pvdb` attributes set by `create_ioc`. -/
def iocmain_attrs : List String :=
  [("prefix"), ("filters"), ("groups"), ("config_data"), ("monitor_pvnames"),
   ("working_filters"), ("t_calc"), ("t_calc_3omega"), ("all_transmissions"),
   ("_find_configs"), ("_get_config"), ("_print_config"), ("sys"), ("pvdb")]

/-- Whether `getattr(self, name)` succeeds on an `IOCMain` instance. -/
def getattr_found (name : String) : Bool := iocmain_attrs.contains name

/-- The call `self.find_configs()` made by `_get_config`
(satt_app.py 147): if the name resolved, it would dispatch to the search;
otherwise Python raises `AttributeError`. -/
def iocmain_call_find_configs (basis : List ℚ) (t_des : ℚ) :
    Except String ((List Bool × ℚ) × (List Bool × ℚ)) :=
  if getattr_found ("find_configs") then Except.ok (_find_configs basis t_des)
  else Except.error ("AttributeError: find_configs")

/-- `IOCMain._get_config` (satt_app.py 137-152): resolve the effective
desired transmission, call `self.find_configs()`, and select the floor or
ceiling configuration by mode. -/
def _get_config (basis : List ℚ) (t_arg : Option ℚ) (stored : ℚ)
    (mode : ConfigMode) : Except String ((List Bool × ℚ) × ℚ) :=
  let t := effective_t_des t_arg stored
  match iocmain_call_find_configs basis t with
  | Except.error e => Except.error e
  | Except.ok conf =>
      match mode with
      | ConfigMode.Floor => Except.ok (conf.1, t)
      | ConfigMode.Ceiling => Except.ok (conf.2, t)

/-- `IOCMain._print_config` (satt_app.py 154-163): calls
`self.get_config()`; only `_get_config` is defined on the class, so the
lookup raises `AttributeError` before any call can take place. -/
def _print_config (basis : List ℚ) (stored : ℚ) (mode : ConfigMode) :
    Except String ((List Bool × ℚ) × ℚ) :=
  if getattr_found ("get_config") then _get_config basis none stored mode
  else Except.error ("AttributeError: get_config")

/-! ### Material-priority search (C6)

`calculator.get_best_config_with_material_priority` lives in
`solid_attenuator/calculator.py`, which is not among the provided sources;
it is modelled from the spec (§4.3). -/

/-- Whether any filter of material `m` is inserted under `mask`. -/
def inserted_any (m : String) (mats : List String) (mask : List Bool) : Bool :=
  ((mats.zip mask).filter (fun p => p.1 == m)).any (fun p => p.2)

/-- Whether every filter of material `m` is inserted under `mask`. -/
def all_inserted (m : String) (mats : List String) (mask : List Bool) : Bool :=
  ((mats.zip mask).filter (fun p => p.1 == m)).all (fun p => p.2)

/-- Modelled from the spec: the precedence rule of §4.3 — "if any filter of
a lower-priority material is inserted, then every working filter of every
higher-priority material must already be inserted" (the basis holds only
working filters).  `order` lists materials from highest to lowest
priority. -/
def priority_ok : List String → List String → List Bool → Bool
  | [], _, _ => true
  | m :: rest, mats, mask =>
      (!(rest.any (fun lo => inserted_any lo mats mask)) || all_inserted m mats mask)
      && priority_ok rest mats mask

/-- Modelled from the spec: the §4.3 search restricts the exhaustive
enumeration of §4.2 to the subsets consistent with the precedence rule. -/
def priority_candidates (order : List String) (mats : List String)
    (transmissions : List ℚ) : List (List Bool × ℚ) :=
  ((allMasks mats.length).filter (priority_ok order mats)).map
    (fun m => (m, maskT transmissions m))

/-- Modelled from the spec:
`calculator.get_best_config_with_material_priority` — the restricted
enumeration followed by the same closest/floor/ceiling selection as the
bitmask search. -/
def get_best_config_with_material_priority (mats : List String)
    (transmissions : List ℚ) (order : List String) (t_des : ℚ)
    (mode : ConfigMode) : List Bool × ℚ :=
  let r := best_low_high (priority_candidates order mats transmissions) t_des
  match mode with
  | ConfigMode.Floor => r.1
  | ConfigMode.Ceiling => r.2

/-! ### Motor feedback: `SystemGroup.motor_has_moved` (sxr.py 34-72) -/

/-- Modelled from the spec: `util.int_array_to_bit_string` (module
`solid_attenuator/util.py` is not among the provided sources) — the
published bitmask condenses a boolean array into an integer. -/
def int_array_to_bit_string (bits : List Bool) : ℕ :=
  bits.foldl (fun acc b => 2 * acc + (if b then 1 else 0)) 0

/-- The outputs of the system group touched by `motor_has_moved`: the
active configuration and its bitmask, the actual transmissions, and the
per-filter moving flags and their bitmask. -/
structure SysOutputs where
  active_config : List MotorState
  active_config_bitmask : ℕ
  transmission_actual : ℚ
  transmission_3omega_actual : ℚ
  filter_moving : List Bool
  filter_moving_bitmask : ℕ
  deriving DecidableEq

/-- `SystemGroup.motor_has_moved` (sxr.py 34-72): update the stored
configuration from a motor's reported state; publish the new configuration,
its bitmask and the recomputed actual transmissions only if the
configuration changed, and the moving flags and their bitmask only if they
changed.  (The per-filter group update of line 71-72 is outside the
published outputs modelled here.) -/
def motor_has_moved (fs : List Filt) (s : SysOutputs) (array_idx : ℕ)
    (st : MotorState) : SysOutputs :=
  let new_config := s.active_config.set array_idx st
  let s1 :=
    if new_config ≠ s.active_config then
      { s with
        active_config := new_config,
        active_config_bitmask :=
          int_array_to_bit_string (new_config.map MotorState.is_inserted),
        transmission_actual := Sxr._update_active_transmission fs new_config,
        transmission_3omega_actual :=
          Sxr._update_active_transmission_3omega fs new_config }
    else s
  let moving := s1.filter_moving.set array_idx st.is_moving
  if moving ≠ s1.filter_moving then
    { s1 with
      filter_moving := moving,
      filter_moving_bitmask := int_array_to_bit_string moving }
  else s1

/-! ### Concrete example data used by witnesses and counterexamples -/

/-- A filter in working order (not stuck, active) with transmission 1/2. -/
def filt_ok : Filt :=
  { is_stuck := "False", active := "True", transmission := 1/2,
    transmission_3omega := 1/2 }

/-- A filter that is not stuck but administratively inactive. -/
def filt_inactive : Filt :=
  { is_stuck := "False", active := "False", transmission := 1/2,
    transmission_3omega := 1/2 }

/-- A concrete system-output record with one inserted blade at rest. -/
def sys0 : SysOutputs :=
  { active_config := [MotorState.inserted],
    active_config_bitmask := 1,
    transmission_actual := 1/2,
    transmission_3omega_actual := 1/2,
    filter_moving := [false],
    filter_moving_bitmask := 0 }

/-! ## Helper lemmas -/

theorem foldl_mul_eq_prod {α : Type} (l : List α) (g : α → ℚ) (c : ℚ) :
    l.foldl (fun t x => t * g x) c = c * (l.map g).prod := by
  induction l generalizing c with
  | nil => simp
  | cons x xs ih => simp [ih, mul_assoc]

theorem filter_prod_eq_map_ite {α : Type} (l : List α) (pred : α → Bool)
    (g : α → ℚ) :
    ((l.filter pred).map g).prod =
      (l.map (fun x => if pred x then g x else 1)).prod := by
  induction l with
  | nil => rfl
  | cons x xs ih => by_cases h : pred x <;> simp [h, ih]

theorem prod_ite_zip_of_inserted :
    ∀ (fs : List Filt) (config : List MotorState),
    fs.length = config.length →
    (∀ p ∈ fs.zip config, working p.1 = true → p.2.is_inserted = true) →
    (fs.map (fun f => if working f then f.transmission else 1)).prod =
      ((fs.zip config).map
        (fun p => if working p.1 && p.2.is_inserted then p.1.transmission
          else 1)).prod := by
  intro fs
  induction fs with
  | nil => intro config _ _; simp
  | cons f rest ih =>
      intro config hlen hins
      cases config with
      | nil => simp at hlen
      | cons c cfg =>
          simp only [List.zip_cons_cons, List.map_cons, List.prod_cons]
          have htail := ih cfg (by simpa using hlen)
            (fun p hp => hins p (List.mem_cons_of_mem _ hp))
          rw [htail]
          congr 1
          by_cases hw : working f
          · have hc : c.is_inserted = true :=
              hins (f, c) (List.mem_cons_self _ _) hw
            simp [hw, hc]
          · simp [hw]

theorem mem_of_mem_issue_commands {prog l : List (ℕ × MotorState)}
    {c : ℕ × MotorState} (h : c ∈ (issue_commands prog l).2) : c ∈ l := by
  induction l generalizing prog with
  | nil => simp [issue_commands] at h
  | cons q rest ih =>
      obtain ⟨pv, tgt⟩ := q
      rw [issue_commands] at h
      split at h
      · exact List.mem_cons_of_mem _ (ih h)
      · simp only [List.mem_cons] at h ⊢
        rcases h with h | h
        · exact Or.inl h
        · exact Or.inr (ih h)

theorem move_in_is_inserted {items : List (ℕ × MotorState × MotorState)}
    {c : ℕ × MotorState} (h : c ∈ move_in items) : c.2.is_inserted = true := by
  simp only [move_in, List.mem_map, List.mem_filter, Bool.and_eq_true,
    decide_eq_true_eq] at h
  obtain ⟨p, ⟨_, hins, _⟩, rfl⟩ := h
  exact hins

theorem issue_commands_lookup_of_not_mem {prog l : List (ℕ × MotorState)} {pv : ℕ}
    (h : pv ∉ l.map (fun p => p.1)) :
    ((issue_commands prog l).1).lookup pv = prog.lookup pv := by
  induction l generalizing prog with
  | nil => rfl
  | cons q rest ih =>
      obtain ⟨q1, q2⟩ := q
      simp only [List.map_cons, List.mem_cons, not_or] at h
      obtain ⟨hne, hrest⟩ := h
      rw [issue_commands]
      split
      · exact ih hrest
      · simp only
        rw [ih hrest, List.lookup_cons]
        simp [beq_eq_false_iff_ne.mpr hne]

theorem issue_commands_lookup_final {l : List (ℕ × MotorState)}
    (hnd : (l.map (fun p => p.1)).Nodup) :
    ∀ prog, ∀ p ∈ l, ((issue_commands prog l).1).lookup p.1 = some p.2 := by
  induction l with
  | nil => intro prog p hp; simp at hp
  | cons q rest ih =>
      intro prog p hp
      obtain ⟨q1, q2⟩ := q
      simp only [List.map_cons, List.nodup_cons] at hnd
      obtain ⟨hq, hrest⟩ := hnd
      simp only [List.mem_cons] at hp
      rw [issue_commands]
      split
      · rename_i heq
        rcases hp with rfl | hp
        · rw [issue_commands_lookup_of_not_mem hq]
          exact heq
        · exact ih hrest prog p hp
      · simp only
        rcases hp with rfl | hp
        · rw [issue_commands_lookup_of_not_mem hq, List.lookup_cons]
          simp
        · exact ih hrest _ p hp

theorem issue_commands_cmds_lookup {l : List (ℕ × MotorState)}
    (hnd : (l.map (fun p => p.1)).Nodup) :
    ∀ prog, ∀ c ∈ (issue_commands prog l).2, prog.lookup c.1 ≠ some c.2 := by
  induction l with
  | nil => intro prog c hc; simp [issue_commands] at hc
  | cons q rest ih =>
      intro prog c hc
      obtain ⟨q1, q2⟩ := q
      simp only [List.map_cons, List.nodup_cons] at hnd
      obtain ⟨hq, hrest⟩ := hnd
      rw [issue_commands] at hc
      split at hc
      · exact ih hrest prog c hc
      · rename_i hne
        simp only [List.mem_cons] at hc
        rcases hc with rfl | hc
        · exact hne
        · have h1 := ih hrest ((q1, q2) :: prog) c hc
          have hcl : c.1 ∈ rest.map (fun p => p.1) :=
            List.mem_map_of_mem _ (mem_of_mem_issue_commands hc)
          have hcq : c.1 ≠ q1 := fun h => hq (h ▸ hcl)
          rw [List.lookup_cons] at h1
          simpa [beq_eq_false_iff_ne.mpr hcq] using h1

theorem issue_commands_cmds_nil {prog l : List (ℕ × MotorState)}
    (h : ∀ p ∈ l, prog.lookup p.1 = some p.2) :
    (issue_commands prog l).2 = [] := by
  induction l with
  | nil => rfl
  | cons q rest ih =>
      obtain ⟨q1, q2⟩ := q
      rw [issue_commands]
      split
      · exact ih (fun p hp => h p (List.mem_cons_of_mem _ hp))
      · exact absurd (h (q1, q2) (List.mem_cons_self _ _)) (by assumption)

theorem to_move_keys_nodup {items : List (ℕ × MotorState × MotorState)}
    (hnd : (items.map (fun p => p.1)).Nodup)
    (pred : ℕ × MotorState × MotorState → Bool) :
    (((items.filter pred).map (fun p => (p.1, p.2.2))).map (fun p => p.1)).Nodup := by
  rw [List.map_map]
  have hsub : List.Sublist ((items.filter pred).map (fun p => p.1))
      (items.map (fun p => p.1)) :=
    (items.filter_sublist).map _
  exact hnd.sublist hsub

theorem coord_run_invariant (evs : List CoordEvent) :
    (coord_run evs).running = (if (coord_run evs).busy then 1 else 0) := by
  suffices h : ∀ s : CoordState,
      s.running = (if s.busy then 1 else 0) →
      (evs.foldl coord_step s).running =
        (if (evs.foldl coord_step s).busy then 1 else 0) by
    exact h _ (by simp)
  induction evs with
  | nil => intro s hs; simpa using hs
  | cons e rest ih =>
      intro s hs
      simp only [List.foldl_cons]
      apply ih
      cases e with
      | trigger =>
          by_cases hb : s.busy <;> simp [coord_step, hb, hs]
      | finish =>
          by_cases hb : s.busy <;> simp [coord_step, hb, hs]

/-! ### Search-engine lemmas -/

theorem absQ_nonneg_eq {x : ℚ} (h : 0 ≤ x) : absQ x = x := by
  rw [absQ, if_neg (not_lt.mpr h)]

theorem absQ_nonpos_eq {x : ℚ} (h : x ≤ 0) : absQ x = -x := by
  rcases lt_or_eq_of_le h with h1 | h1
  · rw [absQ, if_pos h1]
  · subst h1; rw [absQ]; norm_num

theorem getD_congr {α : Type} (l : List α) {i : ℕ} (h : i < l.length) (d d' : α) :
    l.getD i d = l.getD i d' := by
  rw [List.getD_eq_getElem _ _ h, List.getD_eq_getElem _ _ h]

theorem argminAux_fst_lt {α : Type} (f : α → ℚ) (x : α) (l : List α) :
    (argminAux f x l).1 < l.length + 1 := by
  induction l generalizing x with
  | nil => simp [argminAux]
  | cons y ys ih =>
      simp only [argminAux]
      split
      · simpa using Nat.succ_lt_succ (ih y)
      · simp

theorem argminAux_snd_eq {α : Type} (f : α → ℚ) (x : α) (l : List α) :
    (argminAux f x l).2 = f ((x :: l).getD (argminAux f x l).1 x) := by
  induction l generalizing x with
  | nil => simp [argminAux]
  | cons y ys ih =>
      simp only [argminAux]
      split
      · rename_i h
        simp only [List.getD_cons_succ]
        rw [getD_congr (y :: ys) (by simpa using argminAux_fst_lt f y ys) x y]
        exact ih y
      · simp

theorem argminAux_snd_le {α : Type} (f : α → ℚ) (x : α) (l : List α) :
    ∀ j : ℕ, (argminAux f x l).2 ≤ f ((x :: l).getD j x) := by
  induction l generalizing x with
  | nil =>
      intro j
      cases j with
      | zero => simp [argminAux]
      | succ k => simp [argminAux, List.getD]
  | cons y ys ih =>
      intro j
      simp only [argminAux]
      split
      · rename_i h
        cases j with
        | zero => exact le_of_lt h
        | succ k =>
            simp only [List.getD_cons_succ]
            by_cases hk : k < (y :: ys).length
            · rw [getD_congr (y :: ys) hk x y]
              exact ih y k
            · rw [List.getD_eq_default _ _ (not_lt.mp hk)]
              exact le_of_lt h
      · rename_i h
        cases j with
        | zero => simp
        | succ k =>
            simp only [List.getD_cons_succ]
            by_cases hk : k < (y :: ys).length
            · rw [getD_congr (y :: ys) hk x y]
              exact le_trans (not_lt.mp h) (ih y k)
            · rw [List.getD_eq_default _ _ (not_lt.mp hk)]

theorem argminAux_lt_of_lt {α : Type} (f : α → ℚ) (x : α) (l : List α) :
    ∀ j < (argminAux f x l).1, (argminAux f x l).2 < f ((x :: l).getD j x) := by
  induction l generalizing x with
  | nil => intro j hj; simp [argminAux] at hj
  | cons y ys ih =>
      intro j hj
      simp only [argminAux] at hj ⊢
      split at hj
      · rename_i h
        simp only at hj ⊢
        rw [if_pos h]
        cases j with
        | zero => simpa using h
        | succ k =>
            simp only [List.getD_cons_succ]
            have hk : k < (argminAux f y ys).1 := by omega
            have hklen : k < (y :: ys).length := by
              have := argminAux_fst_lt f y ys
              simp only [List.length_cons]
              omega
            rw [getD_congr (y :: ys) hklen x y]
            simpa using ih y k hk
      · simp at hj

theorem searchMin_fst_lt (t : ℚ) (c0 : List Bool × ℚ) (rest : List (List Bool × ℚ)) :
    (searchMin t c0 rest).1 < (c0 :: rest).length := by
  unfold searchMin
  simpa using argminAux_fst_lt _ c0 rest

theorem searchMin_snd_eq (t : ℚ) (c0 : List Bool × ℚ) (rest : List (List Bool × ℚ)) :
    (searchMin t c0 rest).2 =
      absQ (((c0 :: rest).getD (searchMin t c0 rest).1 c0).2 - t) := by
  unfold searchMin
  exact argminAux_snd_eq _ c0 rest

theorem searchMin_le (t : ℚ) (c0 : List Bool × ℚ) (rest : List (List Bool × ℚ)) :
    ∀ j : ℕ, absQ (((c0 :: rest).getD (searchMin t c0 rest).1 c0).2 - t) ≤
      absQ (((c0 :: rest).getD j c0).2 - t) := by
  intro j
  rw [← searchMin_snd_eq t c0 rest]
  unfold searchMin
  exact argminAux_snd_le _ c0 rest j

theorem searchMin_lt (t : ℚ) (c0 : List Bool × ℚ) (rest : List (List Bool × ℚ)) :
    ∀ j < (searchMin t c0 rest).1,
      absQ (((c0 :: rest).getD (searchMin t c0 rest).1 c0).2 - t) <
        absQ (((c0 :: rest).getD j c0).2 - t) := by
  intro j hj
  rw [← searchMin_snd_eq t c0 rest]
  unfold searchMin at hj ⊢
  exact argminAux_lt_of_lt _ c0 rest j hj

instance sndLeIsTotal : IsTotal (List Bool × ℚ) (fun a b => a.2 ≤ b.2) :=
  ⟨fun a b => le_total a.2 b.2⟩

instance sndLeIsTrans : IsTrans (List Bool × ℚ) (fun a b => a.2 ≤ b.2) :=
  ⟨fun _ _ _ => le_trans⟩

theorem sorted_getD_le {tbl : List (List Bool × ℚ)}
    (hs : List.Pairwise (fun a b => a.2 ≤ b.2) tbl) (d : List Bool × ℚ)
    {i j : ℕ} (hij : i ≤ j) (hj : j < tbl.length) :
    (tbl.getD i d).2 ≤ (tbl.getD j d).2 := by
  rcases lt_or_eq_of_le hij with h | h
  · have hi : i < tbl.length := lt_trans h hj
    rw [List.getD_eq_getElem _ _ hi, List.getD_eq_getElem _ _ hj]
    exact List.pairwise_iff_getElem.mp hs i j hi hj h
  · subst h; rfl

theorem getD_mem_of_perm {tbl cands : List (List Bool × ℚ)}
    (hperm : tbl.Perm cands) (d : List Bool × ℚ) {k : ℕ} (hk : k < tbl.length) :
    tbl.getD k d ∈ cands := by
  rw [List.getD_eq_getElem _ _ hk]
  exact hperm.subset (List.getElem_mem hk)

theorem best_low_high_fst_eq {cands : List (List Bool × ℚ)} {t : ℚ}
    {c0 : List Bool × ℚ} {rest : List (List Bool × ℚ)}
    (h : List.insertionSort (fun a b => a.2 ≤ b.2) cands = c0 :: rest) :
    (best_low_high cands t).1 =
      (if ((c0 :: rest).getD (searchMin t c0 rest).1 c0).2 = t then
        (c0 :: rest).getD (searchMin t c0 rest).1 c0
      else if ((c0 :: rest).getD (searchMin t c0 rest).1 c0).2 < t then
        (c0 :: rest).getD (searchMin t c0 rest).1 c0
      else
        (c0 :: rest).getD ((searchMin t c0 rest).1 - 1) c0) := by
  unfold best_low_high
  rw [h]
  simp only [apply_ite (Prod.fst : (List Bool × ℚ) × (List Bool × ℚ) → List Bool × ℚ)]

theorem best_low_high_snd_eq {cands : List (List Bool × ℚ)} {t : ℚ}
    {c0 : List Bool × ℚ} {rest : List (List Bool × ℚ)}
    (h : List.insertionSort (fun a b => a.2 ≤ b.2) cands = c0 :: rest) :
    (best_low_high cands t).2 =
      (if ((c0 :: rest).getD (searchMin t c0 rest).1 c0).2 = t then
        (c0 :: rest).getD (searchMin t c0 rest).1 c0
      else if ((c0 :: rest).getD (searchMin t c0 rest).1 c0).2 < t then
        (c0 :: rest).getD (min ((searchMin t c0 rest).1 + 1) ((c0 :: rest).length - 1)) c0
      else
        (c0 :: rest).getD (searchMin t c0 rest).1 c0) := by
  unfold best_low_high
  rw [h]
  simp only [apply_ite (Prod.snd : (List Bool × ℚ) × (List Bool × ℚ) → List Bool × ℚ)]

theorem bracket_floor {cands tbl : List (List Bool × ℚ)} {t : ℚ} {d : List Bool × ℚ}
    (hperm : tbl.Perm cands)
    (hsorted : List.Pairwise (fun a b : List Bool × ℚ => a.2 ≤ b.2) tbl)
    {i : ℕ} (hi : i < tbl.length)
    (hstrict : ∀ j < i, absQ ((tbl.getD i d).2 - t) < absQ ((tbl.getD j d).2 - t)) :
    ((∃ p ∈ cands, p.2 ≤ t) →
      (if (tbl.getD i d).2 = t then tbl.getD i d
       else if (tbl.getD i d).2 < t then tbl.getD i d
       else tbl.getD (i - 1) d).2 ≤ t) ∧
    ((∀ p ∈ cands, t < p.2) →
      ((if (tbl.getD i d).2 = t then tbl.getD i d
        else if (tbl.getD i d).2 < t then tbl.getD i d
        else tbl.getD (i - 1) d) ∈ cands ∧
       ∀ p ∈ cands,
         (if (tbl.getD i d).2 = t then tbl.getD i d
          else if (tbl.getD i d).2 < t then tbl.getD i d
          else tbl.getD (i - 1) d).2 ≤ p.2)) := by
  by_cases h1 : (tbl.getD i d).2 = t
  · rw [if_pos h1]
    exact ⟨fun _ => le_of_eq h1,
      fun hall => absurd (hall _ (getD_mem_of_perm hperm d hi))
        (by rw [h1]; exact lt_irrefl t)⟩
  · rw [if_neg h1]
    by_cases h2 : (tbl.getD i d).2 < t
    · rw [if_pos h2]
      exact ⟨fun _ => le_of_lt h2,
        fun hall => absurd (hall _ (getD_mem_of_perm hperm d hi))
          (not_lt.mpr (le_of_lt h2))⟩
    · rw [if_neg h2]
      have h3 : t < (tbl.getD i d).2 := lt_of_le_of_ne (not_lt.mp h2) (Ne.symm h1)
      cases i with
      | zero =>
          simp only [Nat.zero_sub]
          constructor
          · rintro ⟨p, hp, hple⟩
            exfalso
            obtain ⟨j, hj, hpj⟩ := List.mem_iff_getElem.mp (hperm.mem_iff.mpr hp)
            have hle : (tbl.getD 0 d).2 ≤ p.2 := by
              rw [← hpj, ← List.getD_eq_getElem tbl d hj]
              exact sorted_getD_le hsorted d (Nat.zero_le j) hj
            linarith
          · intro _
            refine ⟨getD_mem_of_perm hperm d hi, ?_⟩
            intro p hp
            obtain ⟨j, hj, hpj⟩ := List.mem_iff_getElem.mp (hperm.mem_iff.mpr hp)
            rw [← hpj, ← List.getD_eq_getElem tbl d hj]
            exact sorted_getD_le hsorted d (Nat.zero_le j) hj
      | succ k =>
          simp only [Nat.add_sub_cancel]
          have hklen : k < tbl.length := by omega
          have hlo_le : (tbl.getD k d).2 ≤ t := by
            by_contra hlt
            push_neg at hlt
            have hsle : (tbl.getD k d).2 ≤ (tbl.getD (k + 1) d).2 :=
              sorted_getD_le hsorted d (Nat.le_succ k) hi
            have hflo : absQ ((tbl.getD k d).2 - t) = (tbl.getD k d).2 - t :=
              absQ_nonneg_eq (by linarith)
            have hfc : absQ ((tbl.getD (k + 1) d).2 - t) = (tbl.getD (k + 1) d).2 - t :=
              absQ_nonneg_eq (by linarith)
            have hst := hstrict k (Nat.lt_succ_self k)
            rw [hflo, hfc] at hst
            linarith
          exact ⟨fun _ => hlo_le,
            fun hall => absurd (hall _ (getD_mem_of_perm hperm d hklen))
              (not_lt.mpr hlo_le)⟩

theorem bracket_ceiling {cands tbl : List (List Bool × ℚ)} {t : ℚ} {d : List Bool × ℚ}
    (hperm : tbl.Perm cands)
    (hsorted : List.Pairwise (fun a b : List Bool × ℚ => a.2 ≤ b.2) tbl)
    {i : ℕ} (hi : i < tbl.length)
    (hmin_le : ∀ j : ℕ, absQ ((tbl.getD i d).2 - t) ≤ absQ ((tbl.getD j d).2 - t))
    (hnd : (cands.map (fun p => p.2)).Nodup)
    (hex : ∃ p ∈ cands, t ≤ p.2) :
    t ≤ (if (tbl.getD i d).2 = t then tbl.getD i d
         else if (tbl.getD i d).2 < t then
           tbl.getD (min (i + 1) (tbl.length - 1)) d
         else tbl.getD i d).2 := by
  by_cases h1 : (tbl.getD i d).2 = t
  · rw [if_pos h1, h1]
  · rw [if_neg h1]
    by_cases h2 : (tbl.getD i d).2 < t
    · rw [if_pos h2]
      rcases le_or_lt (i + 1) (tbl.length - 1) with hle | hgt
      · rw [min_eq_left hle]
        have hi1 : i + 1 < tbl.length := by omega
        by_contra hlt
        push_neg at hlt
        have hle2 : (tbl.getD i d).2 ≤ (tbl.getD (i + 1) d).2 :=
          sorted_getD_le hsorted d (Nat.le_succ i) hi1
        have hfi : absQ ((tbl.getD i d).2 - t) = t - (tbl.getD i d).2 := by
          rw [absQ_nonpos_eq (by linarith)]; ring
        have hfi1 : absQ ((tbl.getD (i + 1) d).2 - t) = t - (tbl.getD (i + 1) d).2 := by
          rw [absQ_nonpos_eq (by linarith)]; ring
        have hmin := hmin_le (i + 1)
        rw [hfi, hfi1] at hmin
        have heq : (tbl.getD (i + 1) d).2 = (tbl.getD i d).2 := by linarith
        have hndt : (tbl.map (fun p => p.2)).Nodup :=
          ((hperm.map (fun p => p.2)).nodup_iff).mpr hnd
        have hmi : i < (tbl.map (fun p => p.2)).length := by simpa using hi
        have hmi1 : i + 1 < (tbl.map (fun p => p.2)).length := by simpa using hi1
        have hgeq : (tbl.map (fun p => p.2)).get ⟨i, hmi⟩ =
            (tbl.map (fun p => p.2)).get ⟨i + 1, hmi1⟩ := by
          simp only [List.get_eq_getElem, List.getElem_map]
          rw [← List.getD_eq_getElem tbl d hi, ← List.getD_eq_getElem tbl d hi1]
          exact heq.symm
        have := (List.Nodup.get_inj_iff hndt).mp hgeq
        simp at this
      · have hieq : min (i + 1) (tbl.length - 1) = tbl.length - 1 :=
          min_eq_right (by omega)
        have hieq2 : tbl.length - 1 = i := by omega
        rw [hieq, hieq2]
        exfalso
        obtain ⟨p, hp, hge⟩ := hex
        obtain ⟨j, hj, hpj⟩ := List.mem_iff_getElem.mp (hperm.mem_iff.mpr hp)
        have hji : j ≤ i := by omega
        have : p.2 ≤ (tbl.getD i d).2 := by
          rw [← hpj, ← List.getD_eq_getElem tbl d hj]
          exact sorted_getD_le hsorted d hji hi
        linarith
    · rw [if_neg h2]
      exact le_of_lt (lt_of_le_of_ne (not_lt.mp h2) (Ne.symm h1))

theorem best_low_high_floor (cands : List (List Bool × ℚ)) (t : ℚ)
    (hne : cands ≠ []) :
    ((∃ p ∈ cands, p.2 ≤ t) → ((best_low_high cands t).1).2 ≤ t) ∧
    ((∀ p ∈ cands, t < p.2) →
      ((best_low_high cands t).1 ∈ cands ∧
        ∀ p ∈ cands, ((best_low_high cands t).1).2 ≤ p.2)) := by
  have hperm0 : (List.insertionSort (fun a b => a.2 ≤ b.2) cands).Perm cands :=
    List.perm_insertionSort _ cands
  cases hs : List.insertionSort (fun a b => a.2 ≤ b.2) cands with
  | nil => exact absurd (List.Perm.nil_eq (hs ▸ hperm0)).symm hne
  | cons c0 rest =>
      have hperm : (c0 :: rest).Perm cands := hs ▸ hperm0
      have hsorted : List.Pairwise (fun a b : List Bool × ℚ => a.2 ≤ b.2) (c0 :: rest) := by
        have h := List.sorted_insertionSort (fun a b : List Bool × ℚ => a.2 ≤ b.2) cands
        rw [hs] at h
        exact h
      rw [best_low_high_fst_eq hs]
      exact bracket_floor hperm hsorted (searchMin_fst_lt t c0 rest) (searchMin_lt t c0 rest)

theorem best_low_high_ceiling (cands : List (List Bool × ℚ)) (t : ℚ)
    (hne : cands ≠ []) (hnd : (cands.map (fun p => p.2)).Nodup)
    (hex : ∃ p ∈ cands, t ≤ p.2) :
    t ≤ ((best_low_high cands t).2).2 := by
  have hperm0 : (List.insertionSort (fun a b => a.2 ≤ b.2) cands).Perm cands :=
    List.perm_insertionSort _ cands
  cases hs : List.insertionSort (fun a b => a.2 ≤ b.2) cands with
  | nil => exact absurd (List.Perm.nil_eq (hs ▸ hperm0)).symm hne
  | cons c0 rest =>
      have hperm : (c0 :: rest).Perm cands := hs ▸ hperm0
      have hsorted : List.Pairwise (fun a b : List Bool × ℚ => a.2 ≤ b.2) (c0 :: rest) := by
        have h := List.sorted_insertionSort (fun a b : List Bool × ℚ => a.2 ≤ b.2) cands
        rw [hs] at h
        exact h
      rw [best_low_high_snd_eq hs]
      exact bracket_ceiling hperm hsorted (searchMin_fst_lt t c0 rest)
        (searchMin_le t c0 rest) hnd hex

theorem best_low_high_mem (cands : List (List Bool × ℚ)) (t : ℚ)
    (hne : cands ≠ []) :
    (best_low_high cands t).1 ∈ cands ∧ (best_low_high cands t).2 ∈ cands := by
  have hperm0 : (List.insertionSort (fun a b => a.2 ≤ b.2) cands).Perm cands :=
    List.perm_insertionSort _ cands
  cases hs : List.insertionSort (fun a b => a.2 ≤ b.2) cands with
  | nil => exact absurd (List.Perm.nil_eq (hs ▸ hperm0)).symm hne
  | cons c0 rest =>
      have hperm : (c0 :: rest).Perm cands := hs ▸ hperm0
      have hi : (searchMin t c0 rest).1 < (c0 :: rest).length := searchMin_fst_lt t c0 rest
      constructor
      · rw [best_low_high_fst_eq hs]
        split_ifs
        · exact getD_mem_of_perm hperm c0 hi
        · exact getD_mem_of_perm hperm c0 hi
        · exact getD_mem_of_perm hperm c0 (by omega)
      · rw [best_low_high_snd_eq hs]
        split_ifs
        · exact getD_mem_of_perm hperm c0 hi
        · refine getD_mem_of_perm hperm c0 ?_
          have h1 : min ((searchMin t c0 rest).1 + 1) ((c0 :: rest).length - 1) ≤
              (c0 :: rest).length - 1 := min_le_right _ _
          simp only [List.length_cons] at h1 ⊢
          omega
        · exact getD_mem_of_perm hperm c0 hi





theorem allMasks_length (n : ℕ) : (allMasks n).length = 2 ^ n := by
  induction n with
  | zero => rfl
  | succ k ih => simp [allMasks, ih]; ring

theorem replicate_false_mem_allMasks (n : ℕ) :
    List.replicate n false ∈ allMasks n := by
  induction n with
  | zero => simp [allMasks]
  | succ k ih =>
      rw [allMasks, List.replicate_succ]
      exact List.mem_append_left _ (List.mem_map_of_mem _ ih)

theorem maskT_replicate_false (basis : List ℚ) :
    maskT basis (List.replicate basis.length false) = 1 := by
  induction basis with
  | nil => rfl
  | cons b bs ih =>
      rw [maskT, List.length_cons, List.replicate_succ, List.zipWith_cons_cons,
        List.prod_cons]
      rw [maskT] at ih
      rw [ih]
      simp

theorem config_candidates_ne_nil (basis : List ℚ) : config_candidates basis ≠ [] := by
  have h : (config_candidates basis).length = 2 ^ basis.length := by
    rw [config_candidates, List.length_map, allMasks_length]
  intro hcon
  rw [hcon] at h
  simp at h
  exact absurd h.symm (by positivity)

theorem one_mem_config_candidates (basis : List ℚ) :
    (List.replicate basis.length false, (1 : ℚ)) ∈ config_candidates basis := by
  rw [config_candidates]
  have h := List.mem_map_of_mem (fun m => (m, maskT basis m))
    (replicate_false_mem_allMasks basis.length)
  simp only at h
  rwa [maskT_replicate_false] at h


theorem inserted_any_replicate_false (m : String) (mats : List String) (n : ℕ) :
    inserted_any m mats (List.replicate n false) = false := by
  rw [inserted_any]
  apply List.any_eq_false.mpr
  intro p hp
  obtain ⟨a, b⟩ := p
  have hz := List.of_mem_zip (List.mem_of_mem_filter hp)
  have hb : b = false := List.eq_of_mem_replicate hz.2
  simp [hb]

theorem priority_ok_replicate_false (order mats : List String) (n : ℕ) :
    priority_ok order mats (List.replicate n false) = true := by
  induction order with
  | nil => rfl
  | cons m rest ih =>
      rw [priority_ok, ih, Bool.and_true]
      have hany : rest.any (fun lo => inserted_any lo mats (List.replicate n false)) = false := by
        apply List.any_eq_false.mpr
        intro lo _
        simp [inserted_any_replicate_false]
      rw [hany]
      simp

theorem priority_candidates_ne_nil (order mats : List String)
    (transmissions : List ℚ) :
    priority_candidates order mats transmissions ≠ [] := by
  have hmem : List.replicate mats.length false ∈
      (allMasks mats.length).filter (priority_ok order mats) :=
    List.mem_filter.mpr ⟨replicate_false_mem_allMasks _,
      priority_ok_replicate_false order mats _⟩
  intro h
  have hm := List.mem_map_of_mem (fun m => (m, maskT transmissions m)) hmem
  rw [← priority_candidates, h] at hm
  simp at hm

/-! ## Claim theorems: sequencer and re-entrancy -/

/-- C2: in a `move_blade_step` invocation, if the set of filters that must
be inserted is non-empty, every issued command is an insertion command and
no retraction command is issued; a retraction command can be issued only in
a step whose insertion set is empty. -/
theorem move_blade_step_safety_ordering (items : List (ℕ × MotorState × MotorState))
    (prog : List (ℕ × MotorState)) :
    (move_in items ≠ [] →
      ∀ c ∈ (move_blade_step items prog).2.1, c.2.is_inserted = true) ∧
    (∀ c ∈ (move_blade_step items prog).2.1, c.2.is_inserted = false →
      move_in items = []) := by
  constructor
  · intro hne c hc
    rw [move_blade_step] at hc
    simp only [List.isEmpty_iff] at hc
    rw [if_neg hne] at hc
    exact move_in_is_inserted (mem_of_mem_issue_commands hc)
  · intro c hc hret
    by_contra hne
    rw [move_blade_step] at hc
    simp only [List.isEmpty_iff] at hc
    rw [if_neg hne] at hc
    have := move_in_is_inserted (mem_of_mem_issue_commands hc)
    rw [hret] at this
    exact Bool.false_ne_true this

/-- Witness for C2 at a concrete input: one blade must move in, one must
move out; the step issues exactly insertion commands. -/
theorem move_blade_step_safety_ordering_witness :
    move_in [(1, MotorState.retracted, MotorState.inserted),
             (2, MotorState.inserted, MotorState.retracted)] ≠ [] ∧
    ∀ c ∈ (move_blade_step
        [(1, MotorState.retracted, MotorState.inserted),
         (2, MotorState.inserted, MotorState.retracted)] []).2.1,
      c.2.is_inserted = true :=
  ⟨by decide,
   (move_blade_step_safety_ordering
      [(1, MotorState.retracted, MotorState.inserted),
       (2, MotorState.inserted, MotorState.retracted)] []).1 (by decide)⟩

/-- C7: a command for a filter and target state is enqueued only if the
caller-supplied progress record does not already map that filter to that
target, and re-invoking the step with the updated progress record (same
current and target configurations) enqueues no further commands. -/
theorem move_blade_step_duplicate_suppression
    (items : List (ℕ × MotorState × MotorState)) (prog : List (ℕ × MotorState))
    (hnd : (items.map (fun p => p.1)).Nodup) :
    (∀ c ∈ (move_blade_step items prog).2.1, prog.lookup c.1 ≠ some c.2) ∧
    (move_blade_step items ((move_blade_step items prog).1)).2.1 = [] := by
  have hto : ((if (move_in items).isEmpty then move_out items
      else move_in items).map (fun p => p.1)).Nodup := by
    rw [move_in, move_out]
    split <;> exact to_move_keys_nodup hnd _
  constructor
  · intro c hc
    rw [move_blade_step] at hc
    exact issue_commands_cmds_lookup hto prog c hc
  · rw [move_blade_step, move_blade_step]
    simp only
    apply issue_commands_cmds_nil
    intro p hp
    exact issue_commands_lookup_final hto prog p hp

/-- Witness for C7 at a concrete input: two blades with distinct PVs; the
second invocation with the updated progress record issues nothing. -/
theorem move_blade_step_duplicate_suppression_witness :
    (([(1, MotorState.retracted, MotorState.inserted),
       (2, MotorState.inserted, MotorState.retracted)].map
        (fun p => p.1)).Nodup) ∧
    ((∀ c ∈ (move_blade_step
        [(1, MotorState.retracted, MotorState.inserted),
         (2, MotorState.inserted, MotorState.retracted)] []).2.1,
        List.lookup c.1 ([] : List (ℕ × MotorState)) ≠ some c.2) ∧
      (move_blade_step
        [(1, MotorState.retracted, MotorState.inserted),
         (2, MotorState.inserted, MotorState.retracted)]
        ((move_blade_step
          [(1, MotorState.retracted, MotorState.inserted),
           (2, MotorState.inserted, MotorState.retracted)] []).1)).2.1 = []) :=
  ⟨by decide,
   move_blade_step_duplicate_suppression
     [(1, MotorState.retracted, MotorState.inserted),
      (2, MotorState.inserted, MotorState.retracted)] [] (by decide)⟩

/-- C5: at most one recomputation cycle is ever in flight (busy windows do
not overlap), and a trigger arriving while the coordinator is busy leaves
its state unchanged — dropped, not queued. -/
theorem run_calculation_reentrancy (evs : List CoordEvent) :
    (coord_run evs).running ≤ 1 ∧
    ((coord_run evs).busy = true →
      coord_step (coord_run evs) CoordEvent.trigger = coord_run evs) := by
  constructor
  · rw [coord_run_invariant]
    split <;> simp
  · intro hb
    simp [coord_step, hb]

/-- Witness for C5 at a concrete trace: after a single trigger the
coordinator is busy, and a second trigger is dropped. -/
theorem run_calculation_reentrancy_witness :
    (coord_run [CoordEvent.trigger]).busy = true ∧
    coord_step (coord_run [CoordEvent.trigger]) CoordEvent.trigger =
      coord_run [CoordEvent.trigger] :=
  ⟨by decide, (run_calculation_reentrancy [CoordEvent.trigger]).2 (by decide)⟩

/-! ## Claim theorems: transmission products and working sets -/

/-- C3 counterexample: with one working filter that is not inserted, the
recomputation cycle publishes `calculate_transmission = 1/2` (the product
over all working filters), while the claimed inserted-only product is 1. -/
theorem calculate_transmission_ignores_insertion :
    Sxr.calculate_transmission [filt_ok] = 1/2 ∧
    spec_inserted_product [filt_ok] [MotorState.retracted] = 1 ∧
    ((1 : ℚ)/2) ≠ 1 := by
  refine ⟨?_, ?_, by norm_num⟩
  · rw [Sxr.calculate_transmission, Sxr.working_filters]
    simp [working, filt_ok]
  · rw [spec_inserted_product]
    simp [working, filt_ok, MotorState.is_inserted]

/-- C3 amended: the recomputation cycle's published value
(`calculate_transmission`) is the product over all working filters,
regardless of insertion state; the product over the currently inserted
working filters is the `transmission_actual` value computed by the
motor-feedback path (`_update_active_transmission`), and the two agree
exactly when every working filter is inserted. -/
theorem whole_device_transmission (fs : List Filt) (config : List MotorState)
    (hlen : fs.length = config.length) :
    Sxr._update_active_transmission fs config = spec_inserted_product fs config ∧
    Sxr.calculate_transmission fs =
      (fs.map (fun f => if working f then f.transmission else 1)).prod ∧
    ((∀ p ∈ fs.zip config, working p.1 = true → p.2.is_inserted = true) →
      Sxr.calculate_transmission fs = spec_inserted_product fs config) := by
  have h1 : Sxr._update_active_transmission fs config =
      spec_inserted_product fs config := by
    rw [Sxr._update_active_transmission, spec_inserted_product,
      foldl_mul_eq_prod, one_mul, filter_prod_eq_map_ite]
  have h2 : Sxr.calculate_transmission fs =
      (fs.map (fun f => if working f then f.transmission else 1)).prod := by
    rw [Sxr.calculate_transmission, Sxr.working_filters,
      foldl_mul_eq_prod, one_mul, filter_prod_eq_map_ite]
  refine ⟨h1, h2, fun hins => ?_⟩
  rw [h2, spec_inserted_product]
  exact prod_ite_zip_of_inserted fs config hlen hins

/-- Witness for C3 (amended) at a concrete input: one working inserted
filter; the cycle's published product equals the inserted-only product. -/
theorem whole_device_transmission_witness :
    ([filt_ok].length = [MotorState.inserted].length) ∧
    Sxr.calculate_transmission [filt_ok] =
      spec_inserted_product [filt_ok] [MotorState.inserted] :=
  ⟨rfl,
   (whole_device_transmission [filt_ok] [MotorState.inserted] rfl).2.2
     (by
       intro p hp _
       simp only [List.zip_cons_cons, List.zip_nil_right, List.mem_singleton] at hp
       subst hp
       rfl)⟩

/-- C4 counterexample: a filter that is not stuck but administratively
inactive still contributes its transmission to the satt_app basis vector
(`all_transmissions` consults only the stuck flag). -/
theorem all_transmissions_includes_inactive :
    SattApp.all_transmissions [filt_inactive] = [some ((1 : ℚ)/2)] ∧
    filt_inactive.active ≠ "True" := by
  constructor
  · rw [SattApp.all_transmissions]
    simp [filt_inactive]
  · simp [filt_inactive]

/-- C4 amended: in the satt_app variant the transmission basis contains
exactly the values of the non-stuck filters — the `active` flag is not
consulted; the sxr variant's `working_filters` does exclude both stuck and
inactive filters. -/
theorem transmission_basis_working_sets (fs : List Filt) :
    (SattApp.all_transmissions fs).reduceOption =
      (SattApp.working_filters fs).map (fun f => f.transmission) ∧
    ∀ f ∈ Sxr.working_filters fs, f.is_stuck ≠ "True" ∧ f.active = "True" := by
  constructor
  · rw [SattApp.all_transmissions, SattApp.working_filters]
    induction fs with
    | nil => rfl
    | cons f rest ih =>
        by_cases h : f.is_stuck = ("True" : String)
        · rw [List.map_cons, if_neg (by simp [h]), List.reduceOption_cons_of_none,
            List.filter_cons_of_neg (by simp [h]), ih]
        · rw [List.map_cons, if_pos h, List.reduceOption_cons_of_some,
            List.filter_cons_of_pos (by simpa using h), List.map_cons, ih]
  · intro f hf
    rw [Sxr.working_filters] at hf
    simp only [List.mem_filter, working, Bool.and_eq_true, decide_eq_true_eq] at hf
    exact hf.2

/-- Witness for C4 (amended) at a concrete input: a working filter belongs
to the sxr working set and satisfies both flags. -/
theorem transmission_basis_working_sets_witness :
    filt_ok ∈ Sxr.working_filters [filt_ok] ∧
    (filt_ok.is_stuck ≠ "True" ∧ filt_ok.active = "True") :=
  ⟨by simp [Sxr.working_filters, working, filt_ok],
   (transmission_basis_working_sets [filt_ok]).2 filt_ok
     (by simp [Sxr.working_filters, working, filt_ok])⟩

/-! ## Claim theorems: entry points -/

/-- C8: every invocation of `_get_config` fails with an attribute-lookup
error on `find_configs`, and every invocation of `_print_config` fails
with an attribute-lookup error on `get_config`; the floor/ceiling
selection is unreachable through these entry points. -/
theorem get_config_attribute_error (basis : List ℚ) (t_arg : Option ℚ)
    (stored : ℚ) (mode : ConfigMode) :
    _get_config basis t_arg stored mode =
      Except.error ("AttributeError: find_configs") ∧
    _print_config basis stored mode =
      Except.error ("AttributeError: get_config") := by
  have hf : getattr_found ("find_configs") = false := by decide
  have hg : getattr_found ("get_config") = false := by decide
  constructor
  · rw [_get_config, iocmain_call_find_configs, hf]
    simp
  · rw [_print_config, hg]
    simp

/-- C9: a desired-transmission argument of exactly 0 is treated as absent
by the `if not T_des:` truthiness test — the search runs with the stored
setting instead, exactly as when no argument is passed. -/
theorem find_configs_zero_treated_absent (basis : List ℚ) (stored : ℚ) :
    find_configs_entry basis (some 0) stored =
      find_configs_entry basis none stored ∧
    effective_t_des (some 0) stored = stored := by
  constructor
  · rw [find_configs_entry, find_configs_entry]
    simp [effective_t_des]
  · simp [effective_t_des]

/-! ## Claim theorems: motor feedback -/

/-- C10: if the motor's reported state agrees with the stored active
configuration, `motor_has_moved` leaves the published configuration, its
bitmask and both actual transmissions unchanged; if additionally the
moving flags are unchanged, the whole output record is untouched. -/
theorem motor_has_moved_frame (fs : List Filt) (s : SysOutputs) (array_idx : ℕ)
    (st : MotorState)
    (hcfg : s.active_config.set array_idx st = s.active_config) :
    (motor_has_moved fs s array_idx st).active_config = s.active_config ∧
    (motor_has_moved fs s array_idx st).active_config_bitmask =
      s.active_config_bitmask ∧
    (motor_has_moved fs s array_idx st).transmission_actual =
      s.transmission_actual ∧
    (motor_has_moved fs s array_idx st).transmission_3omega_actual =
      s.transmission_3omega_actual ∧
    (s.filter_moving.set array_idx st.is_moving = s.filter_moving →
      motor_has_moved fs s array_idx st = s) := by
  rw [motor_has_moved]
  rw [hcfg]
  by_cases hmv : s.filter_moving.set array_idx st.is_moving = s.filter_moving
  · simp [hmv]
  · simp [hmv]

/-- Witness for C10 at a concrete input: feedback reporting the already
stored inserted state leaves the output record untouched. -/
theorem motor_has_moved_frame_witness :
    ([MotorState.inserted].set 0 MotorState.inserted = [MotorState.inserted]) ∧
    motor_has_moved [] sys0 0 MotorState.inserted = sys0 :=
  ⟨by decide,
   (motor_has_moved_frame [] sys0 0 MotorState.inserted
      (by simp [sys0])).2.2.2.2 (by simp [sys0, MotorState.is_moving])⟩

/-! ## Claim theorems: configuration search -/

/-- C1 counterexample: for the basis `[1/2, 1/2]` (duplicate achievable
transmissions) and desired transmission 3/5, the Ceiling result's
transmission is 1/2 < 3/5 even though a configuration with transmission
at least 3/5 (the empty configuration, transmission 1) is achievable —
the claim's Ceiling clause fails as stated. -/
theorem find_configs_ceiling_counterexample :
    ((_find_configs [1/2, 1/2] (3/5)).2).2 < 3/5 ∧
    (∃ p ∈ config_candidates [(1 : ℚ)/2, 1/2], (3 : ℚ)/5 ≤ p.2) := by
  constructor
  · norm_num [_find_configs, config_candidates, allMasks, maskT, best_low_high,
      searchMin, argminAux, absQ, List.insertionSort, List.orderedInsert]
  · exact ⟨(List.replicate 2 false, 1), one_mem_config_candidates [(1 : ℚ)/2, 1/2],
      by norm_num⟩

/-- C1 amended: for a basis of working filters with transmissions in (0,1)
and desired transmission in [0,1]: the Floor clause holds exactly as
claimed, with no further proviso — the Floor result's transmission never
exceeds the desired value when some configuration at or below it exists,
and when the desired value is below the minimum achievable transmission
the minimum achievable configuration is returned; the Ceiling result is
always an achievable configuration, and its transmission is at least the
desired value provided the 2^N achievable transmissions are pairwise
distinct (the empty configuration with transmission 1 is always
achievable, so the desired value is never above the maximum).  Without
that distinctness proviso the Ceiling clause — and only it — fails (see
the counterexample). -/
theorem find_configs_floor_ceiling (basis : List ℚ) (t_des : ℚ)
    (hb : ∀ x ∈ basis, 0 < x ∧ x < 1) (h0 : 0 ≤ t_des) (h1 : t_des ≤ 1) :
    ((∃ p ∈ config_candidates basis, p.2 ≤ t_des) →
      ((_find_configs basis t_des).1).2 ≤ t_des) ∧
    ((∀ p ∈ config_candidates basis, t_des < p.2) →
      ((_find_configs basis t_des).1 ∈ config_candidates basis ∧
        ∀ p ∈ config_candidates basis, ((_find_configs basis t_des).1).2 ≤ p.2)) ∧
    (((config_candidates basis).map (fun p => p.2)).Nodup →
      t_des ≤ ((_find_configs basis t_des).2).2) ∧
    (_find_configs basis t_des).2 ∈ config_candidates basis := by
  have hne := config_candidates_ne_nil basis
  have hfl := best_low_high_floor (config_candidates basis) t_des hne
  have hex : ∃ p ∈ config_candidates basis, t_des ≤ p.2 :=
    ⟨(List.replicate basis.length false, (1 : ℚ)),
      one_mem_config_candidates basis, h1⟩
  exact ⟨hfl.1, hfl.2,
    fun hnd => best_low_high_ceiling (config_candidates basis) t_des hne hnd hex,
    (best_low_high_mem (config_candidates basis) t_des hne).2⟩

/-- Witness for C1 (amended) at a concrete input: basis `[1/2]`, desired
transmission 3/4; the Floor result for the achievable set {1/2, 1} is
1/2 ≤ 3/4, and since the achievable transmissions are distinct the
Ceiling result is at least 3/4. -/
theorem find_configs_floor_ceiling_witness :
    ((∀ x ∈ [(1 : ℚ)/2], 0 < x ∧ x < 1) ∧
      (∃ p ∈ config_candidates [(1 : ℚ)/2], p.2 ≤ 3/4) ∧
      (((config_candidates [(1 : ℚ)/2]).map (fun p => p.2)).Nodup)) ∧
    (((_find_configs [(1 : ℚ)/2] (3/4)).1).2 ≤ 3/4 ∧
      (3 : ℚ)/4 ≤ ((_find_configs [(1 : ℚ)/2] (3/4)).2).2) :=
  ⟨⟨by norm_num, by norm_num [config_candidates, allMasks, maskT],
    by norm_num [config_candidates, allMasks, maskT]⟩,
   (find_configs_floor_ceiling [(1 : ℚ)/2] (3/4) (by norm_num) (by norm_num)
      (by norm_num)).1 (by norm_num [config_candidates, allMasks, maskT]),
   (find_configs_floor_ceiling [(1 : ℚ)/2] (3/4) (by norm_num) (by norm_num)
      (by norm_num)).2.2.1 (by norm_num [config_candidates, allMasks, maskT])⟩

/-- C6: for a filter set over materials {C, Si} with priority order
[C, Si], whenever the configuration returned by the material-priority
search inserts any Si filter, every working C filter (C filter of the
basis) is inserted as well. -/
theorem material_prioritization (mats : List String) (transmissions : List ℚ)
    (t_des : ℚ) (mode : ConfigMode)
    (hmats : ∀ m ∈ mats, m = "C" ∨ m = "Si")
    (hSi : inserted_any ("Si") mats
      (get_best_config_with_material_priority mats transmissions
        ["C", "Si"] t_des mode).1 = true) :
    all_inserted ("C") mats
      (get_best_config_with_material_priority mats transmissions
        ["C", "Si"] t_des mode).1 = true := by
  have hne := priority_candidates_ne_nil ["C", "Si"] mats transmissions
  have hmem : (get_best_config_with_material_priority mats transmissions
      ["C", "Si"] t_des mode) ∈ priority_candidates ["C", "Si"] mats transmissions := by
    cases mode with
    | Floor =>
        exact (best_low_high_mem (priority_candidates ["C", "Si"] mats transmissions)
          t_des hne).1
    | Ceiling =>
        exact (best_low_high_mem (priority_candidates ["C", "Si"] mats transmissions)
          t_des hne).2
  rw [priority_candidates] at hmem
  obtain ⟨mask, hmaskmem, heq⟩ := List.mem_map.mp hmem
  obtain ⟨_, hok⟩ := List.mem_filter.mp hmaskmem
  have h1 : (get_best_config_with_material_priority mats transmissions
      ["C", "Si"] t_des mode).1 = mask := by rw [← heq]
  rw [h1] at hSi ⊢
  rw [priority_ok, priority_ok, priority_ok] at hok
  simp only [List.any_cons, List.any_nil, Bool.or_false, Bool.and_true,
    Bool.and_eq_true, Bool.or_eq_true, Bool.not_eq_true'] at hok
  rcases hok.1 with h | h
  · rw [hSi] at h
    exact absurd h (by simp)
  · exact h

/-- Witness for C6 at a concrete input: materials [C, Si] with
transmissions [9/10, 1/10] and desired transmission 1/20 in Floor mode;
the returned configuration inserts the Si filter, and the C filter is
inserted as well. -/
theorem material_prioritization_witness :
    ((∀ m ∈ ["C", "Si"], m = "C" ∨ m = "Si") ∧
      inserted_any ("Si") ["C", "Si"]
        (get_best_config_with_material_priority ["C", "Si"] [9/10, 1/10]
          ["C", "Si"] (1/20) ConfigMode.Floor).1 = true) ∧
    all_inserted ("C") ["C", "Si"]
      (get_best_config_with_material_priority ["C", "Si"] [9/10, 1/10]
        ["C", "Si"] (1/20) ConfigMode.Floor).1 = true :=
  ⟨⟨by simp,
    by norm_num [get_best_config_with_material_priority, priority_candidates,
      allMasks, maskT, priority_ok, inserted_any, all_inserted, best_low_high,
      searchMin, argminAux, absQ, List.insertionSort, List.orderedInsert]⟩,
   material_prioritization ["C", "Si"] [9/10, 1/10] (1/20) ConfigMode.Floor
     (by simp)
     (by norm_num [get_best_config_with_material_priority, priority_candidates,
       allMasks, maskT, priority_ok, inserted_any, all_inserted, best_low_high,
       searchMin, argminAux, absQ, List.insertionSort, List.orderedInsert])⟩

end HXRAtten
